import Mathlib

/-!
# argocd-offline-cli: the offline repository provider and the policy bypass shim

A shallow embedding of `preview/local_repos.go` and `preview/offline_git_generator.go`.

* Go strings are embedded as Lean `String`s; `len`, slicing and suffix tests act on the
  underlying sequence of characters.
* A Go `map[string]T` is embedded as a list of entries with pairwise distinct keys; the
  order of the list is the order in which a `range` loop over the map visits the entries.
* A Go `error` is embedded as its message; `nil` is `none`.
* A Go function returning `(T, error)` returns a pair.
-/

namespace Preview

/-! ## Go runtime pieces used by the package -/

/-- A Go `error` value, represented by its message. -/
abbrev GoError := String

/-- A Go `[]byte`. -/
abbrev Bytes := List Nat

/-- A Go `map[string]β`: its entries, in the order a `range` loop visits them. -/
abbrev GoMap (β : Type) := List (String × β)

/-- The comma-ok lookup `v, ok := m[k]`. -/
def GoMap.get {β : Type} (m : GoMap β) (k : String) : Option β :=
  match m with
  | [] => none
  | (k', v) :: rest => if k' = k then some v else GoMap.get rest k

/-- The assignment `m[k] = v`: overwrites the entry of `k` when there is one. -/
def GoMap.set {β : Type} (m : GoMap β) (k : String) (v : β) : GoMap β :=
  match m with
  | [] => [(k, v)]
  | (k', v') :: rest => if k' = k then (k, v) :: rest else (k', v') :: GoMap.set rest k v

/-- The keys of a map. -/
def GoMap.keys {β : Type} (m : GoMap β) : List String := m.map Prod.fst

/-- A Go slice that may be `nil` (`none`). -/
abbrev GoSlice (α : Type) := Option (List α)

/-- The builtin `append(s, x)`; appending to the `nil` slice allocates. -/
def goAppend {α : Type} (s : GoSlice α) (x : α) : GoSlice α :=
  match s with
  | none => some [x]
  | some xs => some (xs ++ [x])

/-- The elements of a slice; the `nil` slice has none. -/
def GoSlice.elems {α : Type} (s : GoSlice α) : List α := s.getD []

/-- The function `strings.HasSuffix`:
`len(s) >= len(suffix) && s[len(s)-len(suffix):] == suffix`. -/
def HasSuffix (s suffix : String) : Bool :=
  decide (suffix.data.length ≤ s.data.length) &&
    decide (s.data.drop (s.data.length - suffix.data.length) = suffix.data)

/-- The function `strings.TrimSuffix`:
`if HasSuffix(s, suffix) { return s[:len(s)-len(suffix)] }; return s`. -/
def TrimSuffix (s suffix : String) : String :=
  if HasSuffix s suffix then ⟨s.data.take (s.data.length - suffix.data.length)⟩ else s

/-! ## `preview/local_repos.go` -/

/-- The struct `LocalRepos`. -/
structure LocalRepos where
  repoMappings : GoMap String

/-- The constructor `NewLocalRepos`. -/
def NewLocalRepos (mappings : GoMap String) : LocalRepos :=
  { repoMappings := mappings }

/-- The function `normalizeRepoURL`. -/
def normalizeRepoURL (url : String) : String :=
  let url := TrimSuffix url "/"
  let url := TrimSuffix url ".git"
  url

/-- The loop `for url, localPath := range r.repoMappings` of `getLocalPath`, which returns
from the function at the first entry whose normalized key equals `normalizedURL`. -/
def getLocalPath.scan (normalizedURL : String) : GoMap String → Option String
  | [] => none
  | (url, localPath) :: rest =>
    if normalizeRepoURL url = normalizedURL then some localPath
    else getLocalPath.scan normalizedURL rest

/-- The method `(*LocalRepos).getLocalPath`. -/
def getLocalPath (r : LocalRepos) (repoURL : String) : String × Option GoError :=
  let normalizedURL := normalizeRepoURL repoURL
  match r.repoMappings.get repoURL with
  | some localPath => (localPath, none)
  | none =>
    match getLocalPath.scan normalizedURL r.repoMappings with
    | some localPath => (localPath, none)
    | none => ("", some ("no local mapping found for repository URL: " ++ repoURL))

/-- The interface `context.Context`; the package only passes it along. -/
structure Context where
  values : List (String × String)

/-- The calls `GetFiles` makes outside the package, as functions of a file system that
does not change while one call runs. -/
structure FilesEnv where
  /-- The call `doublestar.Glob(os.DirFS(dir), pattern)`. -/
  Glob : String → String → Except GoError (List String)
  /-- The call `filepath.Join(dir, name)`. -/
  Join : String → String → String
  /-- The call `os.Stat(path)`; on success the value of `info.IsDir()`. -/
  Stat : String → Except GoError Bool
  /-- The call `os.ReadFile(path)`. -/
  ReadFile : String → Except GoError Bytes

/-- The loop `for _, match := range matches` of `GetFiles`; an error leaves the function. -/
def GetFiles.loop (h : FilesEnv) (localPath : String) :
    List String → GoMap Bytes → Except GoError (GoMap Bytes)
  | [], result => .ok result
  | m :: rest, result =>
    let fullPath := h.Join localPath m
    match h.Stat fullPath with
    | .error err => .error ("error getting file info for " ++ fullPath ++ ": " ++ err)
    | .ok isDir =>
      if isDir then GetFiles.loop h localPath rest result
      else
        match h.ReadFile fullPath with
        | .error err => .error ("error reading file " ++ fullPath ++ ": " ++ err)
        | .ok content => GetFiles.loop h localPath rest (result.set m content)

/-- The method `(*LocalRepos).GetFiles`; the `nil` map is `none`. -/
def GetFiles (h : FilesEnv) (r : LocalRepos) (_ctx : Context)
    (repoURL _revision _project pattern : String) (_noRevisionCache _verifyCommit : Bool) :
    Option (GoMap Bytes) × Option GoError :=
  match getLocalPath r repoURL with
  | (_, some err) => (none, some err)
  | (localPath, none) =>
    let result : GoMap Bytes := []
    match h.Glob localPath pattern with
    | .error err => (none, some ("error matching pattern " ++ pattern ++ ": " ++ err))
    | .ok ms =>
      match GetFiles.loop h localPath ms result with
      | .error err => (none, some err)
      | .ok result => (some result, none)

/-- One call `fn(path, d, err)` made by `filepath.WalkDir`; `isDir` is `d.IsDir()`. -/
structure WalkEntry where
  path : String
  isDir : Bool
  err : Option GoError
deriving DecidableEq

/-- The calls `GetDirectories` makes outside the package. -/
structure WalkEnv where
  /-- The calls `filepath.WalkDir(root, fn)` makes to `fn`, in order, for as long as `fn`
  returns `nil`. -/
  walkCalls : String → List WalkEntry
  /-- The call `filepath.Rel(base, target)`. -/
  Rel : String → String → Except GoError String
  /-- The call `filepath.ToSlash(path)`. -/
  ToSlash : String → String

/-- The driver of `filepath.WalkDir`: it calls `fn` on each entry in turn, threading the
variables `fn` captures, and returns the first error `fn` returns. -/
def WalkDir.run {σ : Type} (fn : σ → String → Bool → Option GoError → σ × Option GoError) :
    List WalkEntry → σ → σ × Option GoError
  | [], s => (s, none)
  | e :: rest, s =>
    match fn s e.path e.isDir e.err with
    | (s', some err) => (s', some err)
    | (s', none) => WalkDir.run fn rest s'

/-- The function `filepath.WalkDir`. -/
def WalkDir {σ : Type} (h : WalkEnv) (root : String)
    (fn : σ → String → Bool → Option GoError → σ × Option GoError) (s : σ) :
    σ × Option GoError :=
  WalkDir.run fn (h.walkCalls root) s

/-- The callback `GetDirectories` hands to `filepath.WalkDir`; the captured variable
`directories` is threaded through. -/
def GetDirectories.fn (h : WalkEnv) (localPath : String) (directories : GoSlice String)
    (path : String) (dIsDir : Bool) (err : Option GoError) : GoSlice String × Option GoError :=
  match err with
  | some e => (directories, some e)
  | none =>
    if path = localPath then (directories, none)
    else if dIsDir then
      match h.Rel localPath path with
      | .error e => (directories, some e)
      | .ok relPath =>
        let relPath := h.ToSlash relPath
        (goAppend directories relPath, none)
    else (directories, none)

/-- The method `(*LocalRepos).GetDirectories`; the `nil` slice is `none`. -/
def GetDirectories (h : WalkEnv) (r : LocalRepos) (_ctx : Context)
    (repoURL _revision _project : String) (_noRevisionCache _verifyCommit : Bool) :
    GoSlice String × Option GoError :=
  match getLocalPath r repoURL with
  | (_, some err) => (none, some err)
  | (localPath, none) =>
    let directories : GoSlice String := none
    match WalkDir h localPath (GetDirectories.fn h localPath) directories with
    | (_, some err) => (none, some ("error walking directory " ++ localPath ++ ": " ++ err))
    | (directories, none) => (directories, none)

/-! ## A file tree and the standard library's view of it

`GetDirectories` is written against `filepath.WalkDir`, `filepath.Rel` and
`filepath.ToSlash`. To state what it returns for a given directory tree, the tree is an
explicit value and the three library functions are given their documented behaviour on it:
regular files and directories beneath the root, a cleaned root path that is a directory or
a symbolic link to one, and `sep` as the host's path separator. -/

/-- The entries of a directory in the order `os.ReadDir` lists them; a directory entry
carries the entries beneath it. -/
inductive Tree where
  | nil : Tree
  | file (name : String) (content : Bytes) (rest : Tree) : Tree
  | dir (name : String) (children : Tree) (rest : Tree) : Tree
deriving DecidableEq

/-- The names of the entries listed in a directory. -/
def Tree.names : Tree → List String
  | .nil => []
  | .file name _ rest => name :: rest.names
  | .dir name _ rest => name :: rest.names

/-- A file name as a host file system hands it out: not empty, not the dot entry, and free
of `/` and of the host separator. -/
def validName (sep : Char) (name : String) : Bool :=
  decide (name ≠ "") && decide (name ≠ ".") && !name.data.contains '/' &&
    !name.data.contains sep

/-- Every name in the tree is valid and no directory lists a name twice. -/
def Tree.wellFormed (sep : Char) : Tree → Bool
  | .nil => true
  | .file name _ rest =>
    validName sep name && !rest.names.contains name && rest.wellFormed sep
  | .dir name children rest =>
    validName sep name && !rest.names.contains name && children.wellFormed sep &&
      rest.wellFormed sep

/-- What lies at a path beneath the root, the path given by its components: `some true`
for a directory, `some false` for a file, `none` when nothing is there. The empty path,
the root itself, is not beneath the root. -/
def Tree.kindAt : Tree → List String → Option Bool
  | .nil, _ => none
  | .file _ _ _, [] => none
  | .dir _ _ _, [] => none
  | .file name _ rest, c :: cs =>
    if name = c then (if cs = [] then some false else none) else rest.kindAt (c :: cs)
  | .dir name children rest, c :: cs =>
    if name = c then (if cs = [] then some true else children.kindAt cs)
    else rest.kindAt (c :: cs)

/-- The calls `filepath.WalkDir` makes for the entries of the directory at `path`: each
entry at `filepath.Join(path, name)`, a directory followed at once by what is beneath it. -/
def Tree.walk (sep : Char) (path : String) : Tree → List WalkEntry
  | .nil => []
  | .file name _ rest =>
    { path := path ++ sep.toString ++ name, isDir := false, err := none } ::
      rest.walk sep path
  | .dir name children rest =>
    { path := path ++ sep.toString ++ name, isDir := true, err := none } ::
      (children.walk sep (path ++ sep.toString ++ name) ++ rest.walk sep path)

/-- What `os.Lstat` finds at the root path: the directory that holds the tree, or a
symbolic link to that directory. -/
inductive RootKind where
  | directory : RootKind
  | symlink : RootKind
deriving DecidableEq

/-- The host whose path `root` leads to the tree `t`. `WalkDir` takes the root as
`os.Lstat` reports it: a directory is reported and then walked, a symbolic link is
reported once, as something that is not a directory, and not followed; any other path
does not exist. `Rel` strips the base and one separator from a path beneath the base,
`ToSlash` replaces the separator by `/`. -/
def treeEnv (sep : Char) (root : String) (kind : RootKind) (t : Tree) : WalkEnv where
  walkCalls path :=
    if path = root then
      match kind with
      | .directory => { path := root, isDir := true, err := none } :: t.walk sep root
      | .symlink => [{ path := root, isDir := false, err := none }]
    else [{ path := path, isDir := false,
            err := some ("lstat " ++ path ++ ": no such file or directory") }]
  Rel base targ :=
    if targ = base then .ok "."
    else if (base.data ++ [sep]).isPrefixOf targ.data then
      .ok ⟨targ.data.drop (base.data.length + 1)⟩
    else .error ("Rel: can't make " ++ targ ++ " relative to " ++ base)
  ToSlash path :=
    if sep = '/' then path else ⟨path.data.map (fun c => if c = sep then '/' else c)⟩

/-! ## `preview/offline_git_generator.go` -/

/-- The type `client.ObjectKey`. -/
structure ObjectKey where
  Namespace : String
  Name : String
deriving DecidableEq

/-- The type `v1alpha1.SignatureKey`. -/
structure SignatureKey where
  KeyID : String
deriving DecidableEq

/-- The type `v1alpha1.AppProjectSpec`: the signature keys and the other fields. -/
structure AppProjectSpec where
  SourceRepos : GoSlice String
  Description : String
  SignatureKeys : GoSlice SignatureKey
deriving DecidableEq

/-- The type `v1alpha1.AppProject`: name and namespace of its object metadata, its spec. -/
structure AppProject where
  Name : String
  Namespace : String
  Spec : AppProjectSpec
deriving DecidableEq

/-- What a `client.Object` points to: an `AppProject` or an object of another kind. -/
inductive Object where
  | appProject (p : AppProject) : Object
  | other (kind : String) (content : String) : Object
deriving DecidableEq

/-- The struct `fakeK8sClient`; it has no fields. -/
structure fakeK8sClient where
deriving DecidableEq

/-- The method `(*fakeK8sClient).Get`; it returns the object `obj` points to after the call
and the error. -/
def fakeK8sClient.Get (_f : fakeK8sClient) (_ctx : Context) (key : ObjectKey) (obj : Object)
    (_opts : List String) : Object × Option GoError :=
  match obj with
  | .appProject appProject =>
    let appProject := { appProject with Name := key.Name }
    let appProject := { appProject with Namespace := key.Namespace }
    let appProject := { appProject with Spec := { appProject.Spec with SignatureKeys := none } }
    (.appProject appProject, none)
  | o => (o, none)

/-- The part of the interface `client.Client` the wrapped generator can reach a project
through. -/
structure Client where
  Get : Context → ObjectKey → Object → List String → Object × Option GoError

/-- The value `&fakeK8sClient{}` as a `client.Client`. -/
def fakeK8sClient.toClient (f : fakeK8sClient) : Client where
  Get := f.Get

/-- The interface `generators.Generator`, over the engine's own state `W`. -/
structure Generator (W Gen AppSet Template Params : Type) where
  GetTemplate : Gen → Template
  GetRequeueAfter : Gen → Int
  GenerateParams : W → Gen → AppSet → Client → (GoSlice Params × Option GoError) × W

/-- The struct `OfflineGitGenerator`. -/
structure OfflineGitGenerator (W Gen AppSet Template Params : Type) where
  inner : Generator W Gen AppSet Template Params

/-- The method `(*OfflineGitGenerator).GetTemplate`. -/
def OfflineGitGenerator.GetTemplate {W Gen AppSet Template Params : Type}
    (g : OfflineGitGenerator W Gen AppSet Template Params) (appSetGenerator : Gen) : Template :=
  g.inner.GetTemplate appSetGenerator

/-- The method `(*OfflineGitGenerator).GetRequeueAfter`. -/
def OfflineGitGenerator.GetRequeueAfter {W Gen AppSet Template Params : Type}
    (g : OfflineGitGenerator W Gen AppSet Template Params) (appSetGenerator : Gen) : Int :=
  g.inner.GetRequeueAfter appSetGenerator

/-- The method `(*OfflineGitGenerator).GenerateParams`. -/
def OfflineGitGenerator.GenerateParams {W Gen AppSet Template Params : Type}
    (g : OfflineGitGenerator W Gen AppSet Template Params) (w : W) (appSetGenerator : Gen)
    (appSet : AppSet) (_client : Client) : (GoSlice Params × Option GoError) × W :=
  let fakeClient : fakeK8sClient := {}
  g.inner.GenerateParams w appSetGenerator appSet fakeClient.toClient

/-! ## Auxiliary definitions for the statements about trees and hosts -/

/-- The component paths of the directories of a tree, in the order `Tree.walk` meets
them. -/
def Tree.dirs : Tree → List (List String)
  | .nil => []
  | .file _ _ rest => rest.dirs
  | .dir name children rest =>
    [name] :: (children.dirs.map (fun cs => name :: cs) ++ rest.dirs)

/-- The path `filepath.Join` arrives at from `root` through the components `pre`. -/
def hostDir (sep : Char) (root : String) (pre : List String) : String :=
  if pre = [] then root else root ++ sep.toString ++ sep.toString.intercalate pre

/-- The tree of the specification's example: directories `a` and `a/b`, file `c.txt`. -/
def exampleTree : Tree :=
  .dir "a" (.dir "b" .nil .nil) (.file "c.txt" [116, 101, 115, 116] .nil)

/-- A host for `GetFiles` whose directory `/repo` holds the directory `apps` with the file
`apps/app1.yaml`, and the file `README.md`; the pattern `*` matches the two top-level
entries and no other pattern matches anything. -/
def exampleFilesEnv : FilesEnv where
  Glob dir pattern :=
    if dir = "/repo" ∧ pattern = "*" then .ok ["README.md", "apps"] else .ok []
  Join dir name := dir ++ "/" ++ name
  Stat path :=
    if path = "/repo/apps" then .ok true
    else if path = "/repo/README.md" ∨ path = "/repo/apps/app1.yaml" then .ok false
    else .error ("stat " ++ path ++ ": no such file or directory")
  ReadFile path :=
    if path = "/repo/README.md" then .ok [35, 32, 82, 69, 65, 68, 77, 69]
    else if path = "/repo/apps/app1.yaml" then .ok [110, 97, 109, 101]
    else .error ("open " ++ path ++ ": no such file or directory")

/-! ## Facts about the string helpers -/

theorem string_eq_of_data {s t : String} (h : s.data = t.data) : s = t := by
  cases s; cases t; simp_all

theorem HasSuffix_iff (s suffix : String) :
    HasSuffix s suffix = true ↔ ∃ t : String, s = t ++ suffix := by
  unfold HasSuffix
  simp only [Bool.and_eq_true, decide_eq_true_eq]
  constructor
  · rintro ⟨_, h2⟩
    refine ⟨⟨s.data.take (s.data.length - suffix.data.length)⟩, ?_⟩
    apply string_eq_of_data
    rw [String.data_append]
    conv_lhs => rw [← List.take_append_drop (s.data.length - suffix.data.length) s.data]
    rw [h2]
  · rintro ⟨t, rfl⟩
    simp

theorem TrimSuffix_append (t suffix : String) : TrimSuffix (t ++ suffix) suffix = t := by
  have h : HasSuffix (t ++ suffix) suffix = true := (HasSuffix_iff _ _).2 ⟨t, rfl⟩
  unfold TrimSuffix
  rw [if_pos h]
  apply string_eq_of_data
  simp

theorem TrimSuffix_of_not (s suffix : String) (h : HasSuffix s suffix = false) :
    TrimSuffix s suffix = s := by
  unfold TrimSuffix
  simp [h]

theorem TrimSuffix_length_le (s suffix : String) :
    (TrimSuffix s suffix).data.length ≤ s.data.length := by
  unfold TrimSuffix
  split <;> simp

theorem TrimSuffix_length_lt (s suffix : String) (h : HasSuffix s suffix = true)
    (hs : 0 < suffix.data.length) :
    (TrimSuffix s suffix).data.length < s.data.length := by
  obtain ⟨t, rfl⟩ := (HasSuffix_iff _ _).1 h
  rw [TrimSuffix_append]
  simp
  exact hs

/-- A string is a fixed point of `normalizeRepoURL` exactly when it ends neither in `/` nor
in `.git`. -/
theorem normalizeRepoURL_eq_self_iff (v : String) :
    normalizeRepoURL v = v ↔ HasSuffix v "/" = false ∧ HasSuffix v ".git" = false := by
  unfold normalizeRepoURL
  constructor
  · intro h
    have hlen : (TrimSuffix (TrimSuffix v "/") ".git").data.length = v.data.length :=
      congrArg (fun s => s.data.length) h
    cases h1 : HasSuffix v "/"
    · rw [TrimSuffix_of_not v "/" h1] at hlen
      cases h2 : HasSuffix v ".git"
      · exact ⟨rfl, rfl⟩
      · have := TrimSuffix_length_lt v ".git" h2 (by decide)
        omega
    · have h3 := TrimSuffix_length_lt v "/" h1 (by decide)
      have h4 := TrimSuffix_length_le (TrimSuffix v "/") ".git"
      omega
  · rintro ⟨h1, h2⟩
    show TrimSuffix (TrimSuffix v "/") ".git" = v
    rw [TrimSuffix_of_not v "/" h1, TrimSuffix_of_not v ".git" h2]

theorem not_HasSuffix_slash_append_git (X : String) : HasSuffix (X ++ ".git") "/" = false := by
  cases h : HasSuffix (X ++ ".git") "/"
  · rfl
  · obtain ⟨t, ht⟩ := (HasSuffix_iff _ _).1 h
    have hd := congrArg String.data ht
    simp only [String.data_append] at hd
    have hl := congrArg List.getLast? hd
    simp at hl

/-! ## Facts about maps -/

theorem GoMap.get_eq_none_of_not_mem {β : Type} (m : GoMap β) (k : String)
    (h : k ∉ m.keys) : m.get k = none := by
  induction m with
  | nil => rfl
  | cons e rest ih =>
    obtain ⟨k', v⟩ := e
    simp only [GoMap.keys, List.map_cons, List.mem_cons, not_or] at h
    simp only [GoMap.get]
    rw [if_neg (fun hk => h.1 hk.symm)]
    exact ih h.2

theorem GoMap.get_of_mem {β : Type} (m : GoMap β) (k : String) (v : β)
    (hnd : m.keys.Nodup) (h : (k, v) ∈ m) : m.get k = some v := by
  induction m with
  | nil => simp at h
  | cons e rest ih =>
    obtain ⟨k', v'⟩ := e
    simp only [GoMap.keys, List.map_cons, List.nodup_cons] at hnd
    simp only [GoMap.get]
    rcases List.mem_cons.1 h with heq | hin
    · simp only [Prod.mk.injEq] at heq
      rw [if_pos heq.1.symm, heq.2]
    · have hne : k' ≠ k := by
        rintro rfl
        exact hnd.1 (List.mem_map.2 ⟨(k', v), hin, rfl⟩)
      rw [if_neg hne]
      exact ih hnd.2 hin

theorem GoMap.mem_of_get {β : Type} (m : GoMap β) (k : String) (v : β)
    (h : m.get k = some v) : (k, v) ∈ m := by
  induction m with
  | nil => simp [GoMap.get] at h
  | cons e rest ih =>
    obtain ⟨k', v'⟩ := e
    simp only [GoMap.get] at h
    split at h
    · rename_i hk
      simp only [Option.some.injEq] at h
      subst hk; subst h
      exact List.mem_cons_self _ _
    · exact List.mem_cons_of_mem _ (ih h)

/-- The scan finds the first entry, in scan order, whose normalized key is the query. -/
theorem scan_eq_some_iff (n : String) (m : GoMap String) (p : String) :
    getLocalPath.scan n m = some p ↔
      ∃ pre k post, m = pre ++ (k, p) :: post ∧ normalizeRepoURL k = n ∧
        ∀ e ∈ pre, normalizeRepoURL e.1 ≠ n := by
  induction m with
  | nil => simp [getLocalPath.scan]
  | cons e rest ih =>
    obtain ⟨k', v'⟩ := e
    simp only [getLocalPath.scan]
    by_cases hk : normalizeRepoURL k' = n
    · rw [if_pos hk]
      constructor
      · intro h
        simp only [Option.some.injEq] at h
        subst h
        exact ⟨[], k', rest, rfl, hk, by simp⟩
      · rintro ⟨pre, k, post, hm, hkn, hpre⟩
        cases pre with
        | nil =>
          simp only [List.nil_append, List.cons.injEq, Prod.mk.injEq] at hm
          rw [hm.1.2]
        | cons e' pre' =>
          simp only [List.cons_append, List.cons.injEq] at hm
          have h1 := hpre e' (List.mem_cons_self _ _)
          rw [← hm.1] at h1
          exact absurd hk h1
    · rw [if_neg hk, ih]
      constructor
      · rintro ⟨pre, k, post, hm, hkn, hpre⟩
        refine ⟨(k', v') :: pre, k, post, by simp [hm], hkn, ?_⟩
        intro e he
        rcases List.mem_cons.1 he with rfl | he
        · exact hk
        · exact hpre e he
      · rintro ⟨pre, k, post, hm, hkn, hpre⟩
        cases pre with
        | nil =>
          simp only [List.nil_append, List.cons.injEq, Prod.mk.injEq] at hm
          exact absurd (hm.1.1 ▸ hkn) hk
        | cons e' pre' =>
          simp only [List.cons_append, List.cons.injEq] at hm
          exact ⟨pre', k, post, hm.2, hkn, fun e he => hpre e (List.mem_cons_of_mem _ he)⟩

theorem scan_eq_none_iff (n : String) (m : GoMap String) :
    getLocalPath.scan n m = none ↔ ∀ k ∈ m.keys, normalizeRepoURL k ≠ n := by
  induction m with
  | nil => simp [getLocalPath.scan, GoMap.keys]
  | cons e rest ih =>
    obtain ⟨k', v'⟩ := e
    simp only [getLocalPath.scan, GoMap.keys, List.map_cons, List.mem_cons, forall_eq_or_imp]
    by_cases hk : normalizeRepoURL k' = n
    · simp [hk]
    · rw [if_neg hk, ih]
      simp [hk, GoMap.keys]

/-! ## Facts about `GoMap.set` and the loop of `GetFiles` -/

theorem GoMap.get_set {β : Type} (m : GoMap β) (k : String) (v : β) (k' : String) :
    (m.set k v).get k' = if k' = k then some v else m.get k' := by
  induction m with
  | nil =>
    simp only [GoMap.set, GoMap.get]
    by_cases h : k' = k
    · simp [h]
    · have h1 : ¬ k = k' := fun h' => h h'.symm
      simp [h, h1]
  | cons e rest ih =>
    obtain ⟨k₀, v₀⟩ := e
    simp only [GoMap.set]
    by_cases h0 : k₀ = k
    · rw [if_pos h0]
      simp only [GoMap.get]
      by_cases h : k' = k
      · simp [h]
      · have h1 : ¬ k = k' := fun h' => h h'.symm
        have h2 : ¬ k₀ = k' := fun h' => h (h'.symm.trans h0)
        simp [h, h1, h2]
    · rw [if_neg h0]
      simp only [GoMap.get]
      by_cases h1 : k₀ = k'
      · have h : ¬ k' = k := fun h' => h0 (h1.trans h')
        simp [h1, h]
      · simp only [if_neg h1]
        exact ih

theorem GoMap.mem_keys_iff_get {β : Type} (m : GoMap β) (k : String) :
    k ∈ m.keys ↔ ∃ v, m.get k = some v := by
  induction m with
  | nil => simp [GoMap.keys, GoMap.get]
  | cons e rest ih =>
    obtain ⟨k₀, v₀⟩ := e
    simp only [GoMap.keys, List.map_cons, List.mem_cons, GoMap.get]
    by_cases h : k₀ = k
    · simp [h]
    · have h' : ¬ k = k₀ := fun h' => h h'.symm
      simp only [h', false_or, if_neg h]
      exact ih

theorem GoMap.keys_set_nodup {β : Type} (m : GoMap β) (k : String) (v : β)
    (h : m.keys.Nodup) : (m.set k v).keys.Nodup := by
  induction m with
  | nil => simp [GoMap.set, GoMap.keys]
  | cons e rest ih =>
    obtain ⟨k₀, v₀⟩ := e
    simp only [GoMap.keys, List.map_cons, List.nodup_cons] at h
    simp only [GoMap.set]
    by_cases h0 : k₀ = k
    · rw [if_pos h0]
      simp only [GoMap.keys, List.map_cons, List.nodup_cons]
      exact ⟨h0 ▸ h.1, h.2⟩
    · rw [if_neg h0]
      simp only [GoMap.keys, List.map_cons, List.nodup_cons]
      refine ⟨?_, ih h.2⟩
      intro hmem
      have hmem' : k₀ ∈ GoMap.keys (GoMap.set rest k v) := hmem
      rw [GoMap.mem_keys_iff_get] at hmem'
      obtain ⟨v', hv'⟩ := hmem'
      rw [GoMap.get_set, if_neg h0] at hv'
      exact h.1 ((GoMap.mem_keys_iff_get rest k₀).2 ⟨v', hv'⟩)

/-- The loop of `GetFiles` runs to its end when every match can be statted and every match
that is not a directory can be read; it then maps exactly the matches that are not
directories, each to what `os.ReadFile` returns for it, on top of the map it started
from. -/
theorem GetFiles.loop_spec (h : FilesEnv) (localPath : String) (ms : List String) :
    ∀ acc : GoMap Bytes,
    (∀ m ∈ ms, ∃ d, h.Stat (h.Join localPath m) = .ok d) →
    (∀ m ∈ ms, h.Stat (h.Join localPath m) = .ok false →
      ∃ c, h.ReadFile (h.Join localPath m) = .ok c) →
    ∃ result, GetFiles.loop h localPath ms acc = .ok result ∧
      (acc.keys.Nodup → result.keys.Nodup) ∧
      ∀ k c, result.get k = some c ↔
        ((k ∈ ms ∧ h.Stat (h.Join localPath k) = .ok false ∧
            h.ReadFile (h.Join localPath k) = .ok c) ∨
          (¬ (k ∈ ms ∧ h.Stat (h.Join localPath k) = .ok false) ∧ acc.get k = some c)) := by
  induction ms with
  | nil =>
    intro acc _ _
    exact ⟨acc, rfl, id, by simp⟩
  | cons m rest ih =>
    intro acc hstat hread
    have hstat' : ∀ m' ∈ rest, ∃ d, h.Stat (h.Join localPath m') = .ok d :=
      fun m' hm' => hstat m' (List.mem_cons_of_mem _ hm')
    have hread' : ∀ m' ∈ rest, h.Stat (h.Join localPath m') = .ok false →
        ∃ c, h.ReadFile (h.Join localPath m') = .ok c :=
      fun m' hm' => hread m' (List.mem_cons_of_mem _ hm')
    obtain ⟨d, hd⟩ := hstat m (List.mem_cons_self _ _)
    cases d with
    | true =>
      obtain ⟨result, hres, hnd, hget⟩ := ih acc hstat' hread'
      refine ⟨result, ?_, hnd, ?_⟩
      · simp only [GetFiles.loop, hd, if_true]
        exact hres
      · intro k c
        rw [hget k c]
        have hm : ∀ k, k = m → h.Stat (h.Join localPath k) ≠ .ok false := by
          rintro k rfl hk
          rw [hd] at hk
          simp at hk
        constructor
        · rintro (⟨h1, h2, h3⟩ | ⟨h1, h2⟩)
          · exact Or.inl ⟨List.mem_cons_of_mem _ h1, h2, h3⟩
          · refine Or.inr ⟨?_, h2⟩
            rintro ⟨h3, h4⟩
            rcases List.mem_cons.1 h3 with h5 | h5
            · exact hm k h5 h4
            · exact h1 ⟨h5, h4⟩
        · rintro (⟨h1, h2, h3⟩ | ⟨h1, h2⟩)
          · rcases List.mem_cons.1 h1 with h5 | h5
            · exact absurd h2 (hm k h5)
            · exact Or.inl ⟨h5, h2, h3⟩
          · exact Or.inr ⟨fun ⟨h3, h4⟩ => h1 ⟨List.mem_cons_of_mem _ h3, h4⟩, h2⟩
    | false =>
      obtain ⟨content, hc⟩ := hread m (List.mem_cons_self _ _) hd
      obtain ⟨result, hres, hnd, hget⟩ := ih (acc.set m content) hstat' hread'
      refine ⟨result, ?_, fun hacc => hnd (GoMap.keys_set_nodup acc m content hacc), ?_⟩
      · simp only [GetFiles.loop, hd, hc]
        exact hres
      · intro k c
        rw [hget k c, GoMap.get_set]
        constructor
        · rintro (⟨h1, h2, h3⟩ | ⟨h1, h2⟩)
          · exact Or.inl ⟨List.mem_cons_of_mem _ h1, h2, h3⟩
          · by_cases hk : k = m
            · rw [if_pos hk] at h2
              simp only [Option.some.injEq] at h2
              subst hk
              subst h2
              exact Or.inl ⟨List.mem_cons_self _ _, hd, hc⟩
            · rw [if_neg hk] at h2
              refine Or.inr ⟨?_, h2⟩
              rintro ⟨h3, h4⟩
              rcases List.mem_cons.1 h3 with h5 | h5
              · exact hk h5
              · exact h1 ⟨h5, h4⟩
        · rintro (⟨h1, h2, h3⟩ | ⟨h1, h2⟩)
          · by_cases hr : k ∈ rest
            · exact Or.inl ⟨hr, h2, h3⟩
            · have hk : k = m := by
                rcases List.mem_cons.1 h1 with h5 | h5
                · exact h5
                · exact absurd h5 hr
              subst hk
              rw [hc] at h3
              simp only [Except.ok.injEq] at h3
              exact Or.inr ⟨fun h6 => hr h6.1, by simp [h3]⟩
          · have hk : k ≠ m := by
              rintro rfl
              exact h1 ⟨List.mem_cons_self _ _, hd⟩
            refine Or.inr ⟨fun ⟨h3, h4⟩ => h1 ⟨List.mem_cons_of_mem _ h3, h4⟩, ?_⟩
            rw [if_neg hk]
            exact h2

/-! ## Facts about slash-separated paths -/

theorem intercalate_go_eq (s : String) (l : List String) :
    ∀ acc : String, String.intercalate.go acc s l = acc ++ String.intercalate.go "" s l := by
  induction l with
  | nil => intro acc; simp [String.intercalate.go]
  | cons a as ih =>
    intro acc
    simp only [String.intercalate.go]
    rw [ih (acc ++ s ++ a), ih ("" ++ s ++ a)]
    simp [String.append_assoc]

theorem intercalate_singleton (s a : String) : s.intercalate [a] = a := by
  simp [String.intercalate, String.intercalate.go]

theorem intercalate_cons_cons (s a b : String) (l : List String) :
    s.intercalate (a :: b :: l) = a ++ s ++ s.intercalate (b :: l) := by
  simp only [String.intercalate, String.intercalate.go]
  rw [intercalate_go_eq s l (a ++ s ++ b), intercalate_go_eq s l b]
  simp [String.append_assoc]

theorem intercalate_append_singleton (s : String) (l : List String) (a : String)
    (hl : l ≠ []) : s.intercalate (l ++ [a]) = s.intercalate l ++ s ++ a := by
  induction l with
  | nil => exact absurd rfl hl
  | cons b l ih =>
    cases l with
    | nil => simp [intercalate_cons_cons, intercalate_singleton]
    | cons c l' =>
      have := ih (by simp)
      simp only [List.cons_append] at this ⊢
      rw [intercalate_cons_cons, this, intercalate_cons_cons]
      simp [String.append_assoc]

theorem char_toString_data (c : Char) : c.toString.data = [c] := rfl

theorem split_at_first (c : Char) (a : List Char) :
    ∀ (b x y : List Char), c ∉ a → c ∉ b → a ++ c :: x = b ++ c :: y → a = b ∧ x = y := by
  induction a with
  | nil =>
    intro b x y _ hb h
    cases b with
    | nil => simpa using h
    | cons b0 b' =>
      simp only [List.nil_append, List.cons_append, List.cons.injEq] at h
      exact absurd (h.1 ▸ List.mem_cons_self _ _) hb
  | cons a0 a' ih =>
    intro b x y ha hb h
    cases b with
    | nil =>
      simp only [List.nil_append, List.cons_append, List.cons.injEq] at h
      exact absurd (h.1 ▸ List.mem_cons_self _ _) ha
    | cons b0 b' =>
      simp only [List.cons_append, List.cons.injEq] at h
      have := ih b' x y (fun hc => ha (List.mem_cons_of_mem _ hc))
        (fun hc => hb (List.mem_cons_of_mem _ hc)) h.2
      exact ⟨by rw [h.1, this.1], this.2⟩

theorem intercalate_slash_injective (l1 : List String) :
    ∀ l2 : List String, l1 ≠ [] → l2 ≠ [] → (∀ c ∈ l1, '/' ∉ c.data) →
      (∀ c ∈ l2, '/' ∉ c.data) → "/".intercalate l1 = "/".intercalate l2 → l1 = l2 := by
  induction l1 with
  | nil => intro l2 h; exact absurd rfl h
  | cons a t1 ih =>
    intro l2 _ h2 hv1 hv2 heq
    cases l2 with
    | nil => exact absurd rfl h2
    | cons b t2 =>
      have ha := hv1 a (List.mem_cons_self _ _)
      have hb := hv2 b (List.mem_cons_self _ _)
      cases t1 with
      | nil =>
        cases t2 with
        | nil =>
          rw [intercalate_singleton, intercalate_singleton] at heq
          rw [heq]
        | cons b2 u2 =>
          rw [intercalate_singleton, intercalate_cons_cons] at heq
          have hd := congrArg String.data heq
          simp only [String.data_append] at hd
          exfalso
          apply ha
          rw [hd]
          simp
      | cons a2 u1 =>
        cases t2 with
        | nil =>
          rw [intercalate_singleton, intercalate_cons_cons] at heq
          have hd := congrArg String.data heq
          simp only [String.data_append] at hd
          exfalso
          apply hb
          rw [← hd]
          simp
        | cons b2 u2 =>
          rw [intercalate_cons_cons, intercalate_cons_cons] at heq
          have hd := congrArg String.data heq
          simp only [String.data_append, List.append_assoc] at hd
          simp only [List.singleton_append] at hd
          obtain ⟨h1, h3⟩ := split_at_first '/' a.data b.data _ _ ha hb hd
          have hab : a = b := by
            cases a; cases b; simp_all
          have hrest : "/".intercalate (a2 :: u1) = "/".intercalate (b2 :: u2) := by
            generalize "/".intercalate (a2 :: u1) = s1 at h3 ⊢
            generalize "/".intercalate (b2 :: u2) = s2 at h3 ⊢
            cases s1; cases s2; simp_all
          have := ih (b2 :: u2) (by simp) (by simp)
            (fun c hc => hv1 c (List.mem_cons_of_mem _ hc))
            (fun c hc => hv2 c (List.mem_cons_of_mem _ hc)) hrest
          rw [hab, this]

/-! ## Facts about the tree host and the walk of `GetDirectories` -/

theorem hostDir_join (sep : Char) (root : String) (pre : List String) (name : String) :
    hostDir sep root pre ++ sep.toString ++ name = hostDir sep root (pre ++ [name]) := by
  unfold hostDir
  by_cases h : pre = []
  · subst h
    simp [intercalate_singleton]
  · rw [if_neg h, if_neg (by simp), intercalate_append_singleton _ _ _ h]
    simp [String.append_assoc]

theorem hostDir_ne_root (sep : Char) (root : String) (pre : List String) (h : pre ≠ []) :
    hostDir sep root pre ≠ root := by
  unfold hostDir
  rw [if_neg h]
  intro heq
  have hl := congrArg (fun s => s.data.length) heq
  simp [char_toString_data] at hl

theorem treeEnv_Rel (sep : Char) (root : String) (k : RootKind) (t : Tree)
    (pre : List String)
    (h : pre ≠ []) :
    (treeEnv sep root k t).Rel root (hostDir sep root pre) =
      .ok (sep.toString.intercalate pre) := by
  have hne := hostDir_ne_root sep root pre h
  simp only [treeEnv, if_neg hne]
  unfold hostDir
  rw [if_neg h]
  have hp : (root.data ++ [sep]).isPrefixOf
      (root ++ sep.toString ++ sep.toString.intercalate pre).data = true := by
    simp [char_toString_data]
  rw [if_pos hp]
  congr 1
  apply string_eq_of_data
  simp only [String.data_append, char_toString_data]
  have hl : (root.data ++ [sep]).length = root.data.length + 1 := by simp
  rw [← hl, List.drop_left]

theorem map_replace_of_not_mem (sep : Char) (l : List Char) (h : sep ∉ l) :
    l.map (fun c => if c = sep then '/' else c) = l := by
  induction l with
  | nil => rfl
  | cons a l ih =>
    simp only [List.mem_cons, not_or] at h
    simp only [List.map_cons]
    rw [ih h.2, if_neg (fun hc => h.1 hc.symm)]

theorem treeEnv_ToSlash (sep : Char) (root : String) (k : RootKind) (t : Tree)
    (pre : List String)
    (hv : ∀ c ∈ pre, sep ∉ c.data) :
    (treeEnv sep root k t).ToSlash (sep.toString.intercalate pre) = "/".intercalate pre := by
  simp only [treeEnv]
  by_cases hs : sep = '/'
  · subst hs
    rw [if_pos rfl]
    rfl
  · rw [if_neg hs]
    apply string_eq_of_data
    simp only
    induction pre with
    | nil => rfl
    | cons a l ih =>
      have ha := hv a (List.mem_cons_self _ _)
      cases l with
      | nil =>
        rw [intercalate_singleton, intercalate_singleton]
        exact map_replace_of_not_mem sep a.data ha
      | cons b l' =>
        have ih' := ih (fun c hc => hv c (List.mem_cons_of_mem _ hc))
        rw [intercalate_cons_cons, intercalate_cons_cons]
        simp only [String.data_append, List.map_append, char_toString_data]
        rw [ih', map_replace_of_not_mem sep a.data ha]
        simp

theorem WalkDir.run_append {σ : Type}
    (fn : σ → String → Bool → Option GoError → σ × Option GoError) (l1 l2 : List WalkEntry) :
    ∀ s s', WalkDir.run fn l1 s = (s', none) →
      WalkDir.run fn (l1 ++ l2) s = WalkDir.run fn l2 s' := by
  induction l1 with
  | nil =>
    intro s s' h
    simp only [WalkDir.run, Prod.mk.injEq, and_true] at h
    subst h
    rfl
  | cons e rest ih =>
    intro s s' h
    simp only [List.cons_append, WalkDir.run] at h ⊢
    rcases hfn : fn s e.path e.isDir e.err with ⟨s1, _ | err⟩
    · rw [hfn] at h
      simp only at h ⊢
      exact ih s1 s' h
    · rw [hfn] at h
      simp at h

theorem validName_sep {sep : Char} {name : String} (h : validName sep name = true) :
    sep ∉ name.data := by
  unfold validName at h
  simp only [Bool.and_eq_true, Bool.not_eq_true', decide_eq_true_eq] at h
  intro hc
  have := h.2
  simp [hc] at this

theorem validName_slash {sep : Char} {name : String} (h : validName sep name = true) :
    '/' ∉ name.data := by
  unfold validName at h
  simp only [Bool.and_eq_true, Bool.not_eq_true', decide_eq_true_eq] at h
  intro hc
  have := h.1.2
  simp [hc] at this

theorem validName_ne_dot {sep : Char} {name : String} (h : validName sep name = true) :
    name ≠ "." := by
  unfold validName at h
  simp only [Bool.and_eq_true, Bool.not_eq_true', decide_eq_true_eq] at h
  exact h.1.1.2

theorem GetDirectories.fn_dir (sep : Char) (root : String) (k : RootKind) (t : Tree)
    (pre : List String)
    (acc : GoSlice String) (h : pre ≠ []) (hv : ∀ c ∈ pre, sep ∉ c.data) :
    GetDirectories.fn (treeEnv sep root k t) root acc (hostDir sep root pre) true none =
      (goAppend acc ("/".intercalate pre), none) := by
  unfold GetDirectories.fn
  simp only [if_neg (hostDir_ne_root sep root pre h), if_true, treeEnv_Rel sep root k t pre h,
    treeEnv_ToSlash sep root k t pre hv]

theorem GetDirectories.fn_file (sep : Char) (root : String) (k : RootKind) (t : Tree)
    (pre : List String)
    (acc : GoSlice String) :
    GetDirectories.fn (treeEnv sep root k t) root acc (hostDir sep root pre) false none =
      (acc, none) := by
  unfold GetDirectories.fn
  simp

/-- The walk over a well-formed tree beneath the directory reached through `pre` returns no
error and appends, in walk order, the slash-separated path of every directory of it. -/
theorem walk_run (sep : Char) (root : String) (k : RootKind) (T : Tree) (t : Tree) :
    ∀ (pre : List String) (acc : GoSlice String), (∀ c ∈ pre, sep ∉ c.data) →
      t.wellFormed sep = true →
      WalkDir.run (GetDirectories.fn (treeEnv sep root k T) root)
          (t.walk sep (hostDir sep root pre)) acc =
        ((t.dirs.map (fun cs => "/".intercalate (pre ++ cs))).foldl goAppend acc, none) := by
  induction t with
  | nil => intro pre acc _ _; rfl
  | file name content rest ih =>
    intro pre acc hpre hwf
    simp only [Tree.wellFormed, Bool.and_eq_true] at hwf
    simp only [Tree.walk, WalkDir.run, hostDir_join, Tree.dirs]
    rw [GetDirectories.fn_file sep root k T (pre ++ [name]) acc]
    exact ih pre acc hpre hwf.2
  | dir name children rest ihc ihr =>
    intro pre acc hpre hwf
    simp only [Tree.wellFormed, Bool.and_eq_true] at hwf
    have hpre' : ∀ c ∈ pre ++ [name], sep ∉ c.data := by
      intro c hc
      rcases List.mem_append.1 hc with h | h
      · exact hpre c h
      · simp only [List.mem_singleton] at h
        subst h
        exact validName_sep hwf.1.1.1
    simp only [Tree.walk, WalkDir.run, hostDir_join, Tree.dirs]
    rw [GetDirectories.fn_dir sep root k T (pre ++ [name]) acc (by simp) hpre']
    simp only
    rw [WalkDir.run_append _ _ _ _ _ (ihc (pre ++ [name]) _ hpre' hwf.1.2), ihr pre _ hpre hwf.2]
    simp [List.foldl_append, Function.comp_def]

theorem elems_foldl_goAppend {α : Type} (l : List α) :
    ∀ acc : GoSlice α, (l.foldl goAppend acc).elems = acc.elems ++ l := by
  induction l with
  | nil => intro acc; simp
  | cons a l ih =>
    intro acc
    simp only [List.foldl_cons]
    rw [ih]
    cases acc <;> simp [goAppend, GoSlice.elems]

/-! ## Facts about the directories of a tree -/

theorem Tree.kindAt_nil_path (t : Tree) : t.kindAt [] = none := by
  cases t <;> rfl

theorem Tree.head_mem_names (t : Tree) :
    ∀ cs ∈ t.dirs, ∃ c cs', cs = c :: cs' ∧ c ∈ t.names := by
  induction t with
  | nil => intro cs h; simp [Tree.dirs] at h
  | file name content rest ih =>
    intro cs h
    obtain ⟨c, cs', h1, h2⟩ := ih cs h
    exact ⟨c, cs', h1, List.mem_cons_of_mem _ h2⟩
  | dir name children rest _ ihr =>
    intro cs h
    simp only [Tree.dirs, List.mem_cons, List.mem_append, List.mem_map] at h
    rcases h with h | ⟨cs', _, h⟩ | h
    · exact ⟨name, [], h, List.mem_cons_self _ _⟩
    · exact ⟨name, cs', h.symm, List.mem_cons_self _ _⟩
    · obtain ⟨c, cs', h1, h2⟩ := ihr cs h
      exact ⟨c, cs', h1, List.mem_cons_of_mem _ h2⟩

theorem Tree.not_mem_dirs_of_not_mem_names (t : Tree) (c : String) (cs : List String)
    (h : c ∉ t.names) : (c :: cs) ∉ t.dirs := by
  intro hm
  obtain ⟨c', cs', h1, h2⟩ := t.head_mem_names _ hm
  simp only [List.cons.injEq] at h1
  exact h (h1.1 ▸ h2)

theorem Tree.nil_not_mem_dirs (t : Tree) : [] ∉ t.dirs := by
  intro hm
  obtain ⟨c', cs', h1, _⟩ := t.head_mem_names _ hm
  simp at h1

theorem not_contains_iff {l : List String} {n : String} (h : (!l.contains n) = true) :
    n ∉ l := by
  simpa using h

/-- In a well-formed tree the listed directory paths are exactly the paths at which
`kindAt` finds a directory. -/
theorem Tree.mem_dirs_iff (sep : Char) (t : Tree) :
    ∀ cs, t.wellFormed sep = true → (cs ∈ t.dirs ↔ t.kindAt cs = some true) := by
  induction t with
  | nil => intro cs _; simp [Tree.dirs, Tree.kindAt]
  | file name content rest ih =>
    intro cs hwf
    simp only [Tree.wellFormed, Bool.and_eq_true] at hwf
    have hn := not_contains_iff hwf.1.2
    cases cs with
    | nil => simp [Tree.kindAt, Tree.dirs, Tree.nil_not_mem_dirs]
    | cons c cs' =>
      simp only [Tree.dirs, Tree.kindAt]
      by_cases hc : name = c
      · subst hc
        rw [if_pos rfl]
        constructor
        · intro h
          exact absurd h (rest.not_mem_dirs_of_not_mem_names _ _ hn)
        · intro h
          split at h <;> simp at h
      · rw [if_neg hc]
        exact ih _ hwf.2
  | dir name children rest ihc ihr =>
    intro cs hwf
    simp only [Tree.wellFormed, Bool.and_eq_true] at hwf
    have hn := not_contains_iff hwf.1.1.2
    cases cs with
    | nil => simp [Tree.kindAt, Tree.dirs, Tree.nil_not_mem_dirs]
    | cons c cs' =>
      simp only [Tree.dirs, Tree.kindAt, List.mem_cons, List.mem_append, List.mem_map,
        List.cons.injEq]
      by_cases hc : name = c
      · subst hc
        rw [if_pos rfl]
        by_cases hcs : cs' = []
        · subst hcs
          simp
        · rw [if_neg hcs, ← ihc cs' hwf.1.2]
          constructor
          · rintro (h | ⟨a, h1, h2⟩ | h)
            · exact absurd h.2 hcs
            · rw [← h2.2]; exact h1
            · exact absurd h (rest.not_mem_dirs_of_not_mem_names _ _ hn)
          · intro h
            exact Or.inr (Or.inl ⟨cs', h, rfl, rfl⟩)
      · rw [if_neg hc, ← ihr _ hwf.2]
        constructor
        · rintro (h | ⟨a, _, h2⟩ | h)
          · exact absurd h.1.symm hc
          · exact absurd h2.1 hc
          · exact h
        · intro h
          exact Or.inr (Or.inr h)

theorem Tree.dirs_nodup (sep : Char) (t : Tree) :
    t.wellFormed sep = true → t.dirs.Nodup := by
  induction t with
  | nil => intro _; simp [Tree.dirs]
  | file name content rest ih =>
    intro hwf
    simp only [Tree.wellFormed, Bool.and_eq_true] at hwf
    exact ih hwf.2
  | dir name children rest ihc ihr =>
    intro hwf
    simp only [Tree.wellFormed, Bool.and_eq_true] at hwf
    have hn := not_contains_iff hwf.1.1.2
    simp only [Tree.dirs, List.nodup_cons, List.mem_append, List.mem_map, not_or]
    refine ⟨⟨?_, rest.not_mem_dirs_of_not_mem_names _ _ hn⟩, ?_⟩
    · rintro ⟨a, h1, h2⟩
      simp only [List.cons.injEq, true_and] at h2
      subst h2
      exact children.nil_not_mem_dirs h1
    · rw [List.nodup_append]
      refine ⟨(ihc hwf.1.2).map (fun a b h => by simpa using h), ihr hwf.2, ?_⟩
      intro cs h1 h2
      simp only [List.mem_map] at h1
      obtain ⟨a, _, rfl⟩ := h1
      exact rest.not_mem_dirs_of_not_mem_names _ _ hn h2

theorem Tree.kindAt_valid (sep : Char) (t : Tree) :
    ∀ cs b, t.wellFormed sep = true → t.kindAt cs = some b →
      cs ≠ [] ∧ ∀ c ∈ cs, validName sep c = true := by
  induction t with
  | nil => intro cs b _ h; simp [Tree.kindAt] at h
  | file name content rest ih =>
    intro cs b hwf h
    simp only [Tree.wellFormed, Bool.and_eq_true] at hwf
    cases cs with
    | nil => simp [Tree.kindAt] at h
    | cons c cs' =>
      simp only [Tree.kindAt] at h
      by_cases hc : name = c
      · subst hc
        rw [if_pos rfl] at h
        by_cases hcs : cs' = []
        · subst hcs
          exact ⟨by simp, by simpa using hwf.1.1⟩
        · simp [hcs] at h
      · rw [if_neg hc] at h
        exact ih _ b hwf.2 h
  | dir name children rest ihc ihr =>
    intro cs b hwf h
    simp only [Tree.wellFormed, Bool.and_eq_true] at hwf
    cases cs with
    | nil => simp [Tree.kindAt] at h
    | cons c cs' =>
      simp only [Tree.kindAt] at h
      by_cases hc : name = c
      · subst hc
        rw [if_pos rfl] at h
        by_cases hcs : cs' = []
        · subst hcs
          exact ⟨by simp, by simpa using hwf.1.1.1⟩
        · rw [if_neg hcs] at h
          have := ihc cs' b hwf.1.2 h
          refine ⟨by simp, ?_⟩
          intro c hc
          rcases List.mem_cons.1 hc with rfl | hc
          · exact hwf.1.1.1
          · exact this.2 c hc
      · rw [if_neg hc] at h
        exact ihr _ b hwf.2 h

/-! ## The claims -/

/-- C1 (as stated, refuted): `normalizeRepoURL` is not idempotent; on `repo.git.git` the
first application yields `repo.git` and the second yields `repo`. -/
theorem normalizeRepoURL_not_idempotent :
    normalizeRepoURL "repo.git.git" = "repo.git" ∧
    normalizeRepoURL (normalizeRepoURL "repo.git.git") = "repo" ∧
    normalizeRepoURL (normalizeRepoURL "repo.git.git") ≠ normalizeRepoURL "repo.git.git" := by
  decide

/-- C1 (amended): applying `normalizeRepoURL` a second time changes nothing exactly when
the first result ends neither in `/` nor in `.git`. -/
theorem normalizeRepoURL_idempotent_iff (u : String) :
    normalizeRepoURL (normalizeRepoURL u) = normalizeRepoURL u ↔
      HasSuffix (normalizeRepoURL u) "/" = false ∧
        HasSuffix (normalizeRepoURL u) ".git" = false :=
  normalizeRepoURL_eq_self_iff (normalizeRepoURL u)

/-- C2: for a base string `X` ending neither in `/` nor in `.git`, the four spellings `X`,
`X.git`, `X/` and `X.git/` all normalize to `X`. -/
theorem normalizeRepoURL_variants (X : String)
    (h1 : HasSuffix X "/" = false) (h2 : HasSuffix X ".git" = false) :
    normalizeRepoURL X = X ∧ normalizeRepoURL (X ++ ".git") = X ∧
      normalizeRepoURL (X ++ "/") = X ∧ normalizeRepoURL (X ++ ".git/") = X := by
  refine ⟨(normalizeRepoURL_eq_self_iff X).2 ⟨h1, h2⟩, ?_, ?_, ?_⟩
  · show TrimSuffix (TrimSuffix (X ++ ".git") "/") ".git" = X
    rw [TrimSuffix_of_not _ _ (not_HasSuffix_slash_append_git X), TrimSuffix_append]
  · show TrimSuffix (TrimSuffix (X ++ "/") "/") ".git" = X
    rw [TrimSuffix_append, TrimSuffix_of_not _ _ h2]
  · show TrimSuffix (TrimSuffix (X ++ ".git/") "/") ".git" = X
    have h : X ++ ".git/" = (X ++ ".git") ++ "/" := by
      rw [String.append_assoc]; rfl
    rw [h, TrimSuffix_append, TrimSuffix_append]

/-- Witness of C2 at the base string of the repository's own test table. -/
theorem normalizeRepoURL_variants_witness :
    normalizeRepoURL "https://github.com/org/repo" = "https://github.com/org/repo" ∧
    normalizeRepoURL ("https://github.com/org/repo" ++ ".git") = "https://github.com/org/repo" ∧
    normalizeRepoURL ("https://github.com/org/repo" ++ "/") = "https://github.com/org/repo" ∧
    normalizeRepoURL ("https://github.com/org/repo" ++ ".git/") =
      "https://github.com/org/repo" :=
  normalizeRepoURL_variants "https://github.com/org/repo" (by decide) (by decide)

/-- C3: when the identity `R` is itself a key of the mapping, `getLocalPath` succeeds with
the path mapped to `R`, whatever other keys the mapping holds and wherever `R` stands in
the scan order. -/
theorem getLocalPath_exact_match (r : LocalRepos) (R p : String)
    (hnd : r.repoMappings.keys.Nodup) (hmem : (R, p) ∈ r.repoMappings) :
    getLocalPath r R = (p, none) := by
  unfold getLocalPath
  simp only [GoMap.get_of_mem r.repoMappings R p hnd hmem]

/-- Witness of C3: `R.git` normalizes like `R`, is mapped elsewhere and is scanned first,
and still the exact key wins. -/
theorem getLocalPath_exact_match_witness :
    normalizeRepoURL "R.git" = normalizeRepoURL "R" ∧
    getLocalPath (NewLocalRepos [("R.git", "/b"), ("R", "/a")]) "R" = ("/a", none) :=
  ⟨by decide,
   getLocalPath_exact_match (NewLocalRepos [("R.git", "/b"), ("R", "/a")]) "R" "/a"
     (by decide) (by decide)⟩

/-- C4: when no key of the mapping normalizes like `u`, `getLocalPath` fails with the
message `no local mapping found for repository URL: ` followed by `u` as given, and
`GetFiles` and `GetDirectories` return that same error and a `nil` result, whatever the
host and their other arguments are. -/
theorem unknown_repository (r : LocalRepos) (u : String)
    (hno : ∀ k ∈ r.repoMappings.keys, normalizeRepoURL k ≠ normalizeRepoURL u) :
    u ∉ r.repoMappings.keys ∧
    getLocalPath r u = ("", some ("no local mapping found for repository URL: " ++ u)) ∧
    (∀ (h : FilesEnv) (ctx : Context) (revision project pattern : String)
        (noRevisionCache verifyCommit : Bool),
      GetFiles h r ctx u revision project pattern noRevisionCache verifyCommit =
        (none, some ("no local mapping found for repository URL: " ++ u))) ∧
    (∀ (h : WalkEnv) (ctx : Context) (revision project : String)
        (noRevisionCache verifyCommit : Bool),
      GetDirectories h r ctx u revision project noRevisionCache verifyCommit =
        (none, some ("no local mapping found for repository URL: " ++ u))) := by
  have hnot : u ∉ r.repoMappings.keys := fun hu => hno u hu rfl
  have hpath : getLocalPath r u =
      ("", some ("no local mapping found for repository URL: " ++ u)) := by
    unfold getLocalPath
    simp only [GoMap.get_eq_none_of_not_mem _ _ hnot, (scan_eq_none_iff _ _).2 hno]
  refine ⟨hnot, hpath, ?_, ?_⟩
  · intro h ctx revision project pattern noRevisionCache verifyCommit
    unfold GetFiles
    rw [hpath]
  · intro h ctx revision project noRevisionCache verifyCommit
    unfold GetDirectories
    rw [hpath]

/-- Witness of C4 on the mapping of the repository's own test. -/
theorem unknown_repository_witness :
    "https://github.com/org/other" ∉
      (NewLocalRepos [("https://github.com/org/repo.git", "/path/to/repo")]).repoMappings.keys ∧
    getLocalPath (NewLocalRepos [("https://github.com/org/repo.git", "/path/to/repo")])
        "https://github.com/org/other" =
      ("", some ("no local mapping found for repository URL: " ++
        "https://github.com/org/other")) ∧
    (∀ (h : FilesEnv) (ctx : Context) (revision project pattern : String)
        (noRevisionCache verifyCommit : Bool),
      GetFiles h (NewLocalRepos [("https://github.com/org/repo.git", "/path/to/repo")]) ctx
          "https://github.com/org/other" revision project pattern noRevisionCache
          verifyCommit =
        (none, some ("no local mapping found for repository URL: " ++
          "https://github.com/org/other"))) ∧
    (∀ (h : WalkEnv) (ctx : Context) (revision project : String)
        (noRevisionCache verifyCommit : Bool),
      GetDirectories h (NewLocalRepos [("https://github.com/org/repo.git", "/path/to/repo")])
          ctx "https://github.com/org/other" revision project noRevisionCache verifyCommit =
        (none, some ("no local mapping found for repository URL: " ++
          "https://github.com/org/other"))) :=
  unknown_repository (NewLocalRepos [("https://github.com/org/repo.git", "/path/to/repo")])
    "https://github.com/org/other" (by decide)

/-- C5: when the identity `u` is not a key but some key normalizes like `u`,
`getLocalPath` succeeds with the path of the first entry in scan order whose normalized
key equals the normalized `u`; that path is the mapping's value at a key that normalizes
like `u`. -/
theorem getLocalPath_normalized_fallback (r : LocalRepos) (u : String)
    (hnd : r.repoMappings.keys.Nodup) (hnot : u ∉ r.repoMappings.keys)
    (hex : ∃ k ∈ r.repoMappings.keys, normalizeRepoURL k = normalizeRepoURL u) :
    ∃ pre k p post, r.repoMappings = pre ++ (k, p) :: post ∧
      normalizeRepoURL k = normalizeRepoURL u ∧
      (∀ e ∈ pre, normalizeRepoURL e.1 ≠ normalizeRepoURL u) ∧
      r.repoMappings.get k = some p ∧
      getLocalPath r u = (p, none) := by
  have hget := GoMap.get_eq_none_of_not_mem r.repoMappings u hnot
  cases hs : getLocalPath.scan (normalizeRepoURL u) r.repoMappings with
  | none =>
    obtain ⟨k, hk, hkn⟩ := hex
    exact absurd hkn ((scan_eq_none_iff _ _).1 hs k hk)
  | some p =>
    obtain ⟨pre, k, post, hm, hkn, hpre⟩ := (scan_eq_some_iff _ _ _).1 hs
    refine ⟨pre, k, p, post, hm, hkn, hpre, ?_, ?_⟩
    · exact GoMap.get_of_mem _ _ _ hnd (by rw [hm]; simp)
    · unfold getLocalPath
      simp only [hget, hs]

/-- Witness of C5 on the mapping of the repository's own test, queried without `.git`. -/
theorem getLocalPath_normalized_fallback_witness :
    ∃ pre k p post,
      (NewLocalRepos [("https://github.com/org/other.git", "/o"),
        ("https://github.com/org/repo.git", "/path/to/repo")]).repoMappings =
        pre ++ (k, p) :: post ∧
      normalizeRepoURL k = normalizeRepoURL "https://github.com/org/repo" ∧
      (∀ e ∈ pre, normalizeRepoURL e.1 ≠ normalizeRepoURL "https://github.com/org/repo") ∧
      (NewLocalRepos [("https://github.com/org/other.git", "/o"),
        ("https://github.com/org/repo.git", "/path/to/repo")]).repoMappings.get k = some p ∧
      getLocalPath (NewLocalRepos [("https://github.com/org/other.git", "/o"),
        ("https://github.com/org/repo.git", "/path/to/repo")])
        "https://github.com/org/repo" = (p, none) :=
  getLocalPath_normalized_fallback
    (NewLocalRepos [("https://github.com/org/other.git", "/o"),
      ("https://github.com/org/repo.git", "/path/to/repo")])
    "https://github.com/org/repo" (by decide) (by decide)
    ⟨"https://github.com/org/repo.git", by decide, by decide⟩

/-- C6: for a resolvable identity and a pattern whose expansion succeeds, when every match
can be statted and every match that is not a directory can be read, `GetFiles` returns no
error and a map whose keys are exactly the matches that are not directories, each mapped
to the bytes `os.ReadFile` returns for it; a match that is a directory is not a key. -/
theorem GetFiles_excludes_directories (h : FilesEnv) (r : LocalRepos) (ctx : Context)
    (repoURL revision project pattern : String) (noRevisionCache verifyCommit : Bool)
    (localPath : String) (ms : List String)
    (hres : getLocalPath r repoURL = (localPath, none))
    (hglob : h.Glob localPath pattern = .ok ms)
    (hstat : ∀ m ∈ ms, ∃ d, h.Stat (h.Join localPath m) = .ok d)
    (hread : ∀ m ∈ ms, h.Stat (h.Join localPath m) = .ok false →
      ∃ c, h.ReadFile (h.Join localPath m) = .ok c) :
    ∃ result,
      GetFiles h r ctx repoURL revision project pattern noRevisionCache verifyCommit =
        (some result, none) ∧
      result.keys.Nodup ∧
      (∀ k, k ∈ result.keys ↔ (k ∈ ms ∧ h.Stat (h.Join localPath k) = .ok false)) ∧
      (∀ k, k ∈ result.keys →
        ∃ c, h.ReadFile (h.Join localPath k) = .ok c ∧ result.get k = some c) ∧
      (∀ k, k ∈ ms → h.Stat (h.Join localPath k) = .ok true → k ∉ result.keys) := by
  obtain ⟨result, hloop, hnd, hget⟩ := GetFiles.loop_spec h localPath ms [] hstat hread
  have hkeys : ∀ k, k ∈ result.keys ↔ (k ∈ ms ∧ h.Stat (h.Join localPath k) = .ok false) := by
    intro k
    rw [GoMap.mem_keys_iff_get]
    constructor
    · rintro ⟨c, hc⟩
      rcases (hget k c).1 hc with ⟨h1, h2, _⟩ | ⟨_, h2⟩
      · exact ⟨h1, h2⟩
      · simp [GoMap.get] at h2
    · rintro ⟨h1, h2⟩
      obtain ⟨c, hc⟩ := hread k h1 h2
      exact ⟨c, (hget k c).2 (Or.inl ⟨h1, h2, hc⟩)⟩
  refine ⟨result, ?_, hnd (by simp [GoMap.keys]), hkeys, ?_, ?_⟩
  · unfold GetFiles
    rw [hres]
    simp only [hglob, hloop]
  · intro k hk
    obtain ⟨h1, h2⟩ := (hkeys k).1 hk
    obtain ⟨c, hc⟩ := hread k h1 h2
    exact ⟨c, hc, (hget k c).2 (Or.inl ⟨h1, h2, hc⟩)⟩
  · intro k _ hdir hk
    have h2 := ((hkeys k).1 hk).2
    rw [hdir] at h2
    simp at h2

/-- Witness of C6: the pattern `*` matches the file `README.md` and the directory `apps`;
the result holds `README.md` with its bytes and does not hold `apps`. -/
theorem GetFiles_excludes_directories_witness :
    GetFiles exampleFilesEnv (NewLocalRepos [("https://github.com/org/repo.git", "/repo")])
        ⟨[]⟩ "https://github.com/org/repo.git" "main" "" "*" false false =
      (some [("README.md", [35, 32, 82, 69, 65, 68, 77, 69])], none) ∧
    ∃ result,
      GetFiles exampleFilesEnv (NewLocalRepos [("https://github.com/org/repo.git", "/repo")])
        ⟨[]⟩ "https://github.com/org/repo.git" "main" "" "*" false false =
        (some result, none) ∧
      result.keys.Nodup ∧
      (∀ k, k ∈ result.keys ↔ (k ∈ ["README.md", "apps"] ∧
        exampleFilesEnv.Stat (exampleFilesEnv.Join "/repo" k) = .ok false)) ∧
      (∀ k, k ∈ result.keys →
        ∃ c, exampleFilesEnv.ReadFile (exampleFilesEnv.Join "/repo" k) = .ok c ∧
          result.get k = some c) ∧
      (∀ k, k ∈ ["README.md", "apps"] →
        exampleFilesEnv.Stat (exampleFilesEnv.Join "/repo" k) = .ok true → k ∉ result.keys) :=
  ⟨by decide,
   GetFiles_excludes_directories exampleFilesEnv
     (NewLocalRepos [("https://github.com/org/repo.git", "/repo")]) ⟨[]⟩
     "https://github.com/org/repo.git" "main" "" "*" false false "/repo"
     ["README.md", "apps"] (by decide) rfl
     (by
       intro m hm
       simp only [List.mem_cons, List.mem_singleton, List.not_mem_nil, or_false] at hm
       rcases hm with rfl | rfl
       · exact ⟨false, rfl⟩
       · exact ⟨true, rfl⟩)
     (by
       intro m hm hs
       simp only [List.mem_cons, List.mem_singleton, List.not_mem_nil, or_false] at hm
       rcases hm with rfl | rfl
       · exact ⟨[35, 32, 82, 69, 65, 68, 77, 69], rfl⟩
       · have hs' : (Except.ok true : Except GoError Bool) = Except.ok false := hs
         cases hs')⟩

/-- C7: for a resolvable identity and a pattern whose expansion succeeds with no match,
`GetFiles` returns no error and the empty map, which is not the `nil` map. -/
theorem GetFiles_no_match (h : FilesEnv) (r : LocalRepos) (ctx : Context)
    (repoURL revision project pattern : String) (noRevisionCache verifyCommit : Bool)
    (localPath : String)
    (hres : getLocalPath r repoURL = (localPath, none))
    (hglob : h.Glob localPath pattern = .ok []) :
    GetFiles h r ctx repoURL revision project pattern noRevisionCache verifyCommit =
      (some [], none) := by
  unfold GetFiles
  rw [hres]
  simp only [hglob, GetFiles.loop]

/-- Witness of C7: in the same host the pattern `*.yaml` matches nothing. -/
theorem GetFiles_no_match_witness :
    GetFiles exampleFilesEnv (NewLocalRepos [("https://github.com/org/repo.git", "/repo")])
        ⟨[]⟩ "https://github.com/org/repo.git" "main" "" "*.yaml" false false =
      (some [], none) :=
  GetFiles_no_match exampleFilesEnv
    (NewLocalRepos [("https://github.com/org/repo.git", "/repo")]) ⟨[]⟩
    "https://github.com/org/repo.git" "main" "" "*.yaml" false false "/repo"
    (by decide) rfl

/-- For a resolvable identity whose path is itself a directory and holds a well-formed
tree, `GetDirectories` returns no error and a list that holds, each once and in walk
order, the slash-separated root-relative path of every directory beneath the root; it
holds no path of a file and not the root. -/
theorem GetDirectories_directory_root (sep : Char) (root : String) (t : Tree)
    (r : LocalRepos) (ctx : Context) (repoURL revision project : String)
    (noRevisionCache verifyCommit : Bool)
    (hres : getLocalPath r repoURL = (root, none)) (hwf : t.wellFormed sep = true) :
    ∃ directories,
      GetDirectories (treeEnv sep root .directory t) r ctx repoURL revision project noRevisionCache
        verifyCommit = (directories, none) ∧
      directories.elems = t.dirs.map (fun cs => "/".intercalate cs) ∧
      directories.elems.Nodup ∧
      (∀ p, p ∈ directories.elems ↔ ∃ cs, t.kindAt cs = some true ∧ p = "/".intercalate cs) ∧
      (∀ cs, t.kindAt cs = some false → "/".intercalate cs ∉ directories.elems) ∧
      "." ∉ directories.elems := by
  have hrun := walk_run sep root .directory t t [] none (by simp) hwf
  have hroot : hostDir sep root [] = root := rfl
  rw [hroot] at hrun
  simp only [List.nil_append] at hrun
  have hvalid : ∀ cs ∈ t.dirs, cs ≠ [] ∧ ∀ c ∈ cs, '/' ∉ c.data := by
    intro cs hcs
    have := t.kindAt_valid sep cs true hwf ((t.mem_dirs_iff sep cs hwf).1 hcs)
    exact ⟨this.1, fun c hc => validName_slash (this.2 c hc)⟩
  have hmem : ∀ p, p ∈ t.dirs.map (fun cs => "/".intercalate cs) ↔
      ∃ cs, t.kindAt cs = some true ∧ p = "/".intercalate cs := by
    intro p
    simp only [List.mem_map]
    constructor
    · rintro ⟨cs, h1, h2⟩
      exact ⟨cs, (t.mem_dirs_iff sep cs hwf).1 h1, h2.symm⟩
    · rintro ⟨cs, h1, h2⟩
      exact ⟨cs, (t.mem_dirs_iff sep cs hwf).2 h1, h2.symm⟩
  have helems : ((t.dirs.map (fun cs => "/".intercalate cs)).foldl goAppend
      (none : GoSlice String)).elems = t.dirs.map (fun cs => "/".intercalate cs) := by
    rw [elems_foldl_goAppend]
    simp [GoSlice.elems]
  refine ⟨_, ?_, helems, ?_, ?_, ?_, ?_⟩
  · unfold GetDirectories
    rw [hres]
    simp only [WalkDir, treeEnv, if_true, WalkDir.run, GetDirectories.fn]
    have hrun' := hrun
    simp only [treeEnv] at hrun'
    rw [hrun']
  · rw [helems]
    refine List.Nodup.map_on ?_ (t.dirs_nodup sep hwf)
    intro a ha b hb hab
    exact intercalate_slash_injective a b (hvalid a ha).1 (hvalid b hb).1 (hvalid a ha).2
      (hvalid b hb).2 hab
  · rw [helems]
    exact hmem
  · intro cs hfile hin
    rw [helems] at hin
    obtain ⟨cs', hdir, heq⟩ := (hmem _).1 hin
    have h1 := t.kindAt_valid sep cs false hwf hfile
    have h2 := t.kindAt_valid sep cs' true hwf hdir
    have := intercalate_slash_injective cs cs' h1.1 h2.1
      (fun c hc => validName_slash (h1.2 c hc)) (fun c hc => validName_slash (h2.2 c hc)) heq
    rw [this, hdir] at hfile
    simp at hfile
  · intro hin
    rw [helems] at hin
    obtain ⟨cs', hdir, heq⟩ := (hmem _).1 hin
    have h2 := t.kindAt_valid sep cs' true hwf hdir
    have hdot : "." = "/".intercalate ["."] := (intercalate_singleton "/" ".").symm
    rw [hdot] at heq
    have := intercalate_slash_injective ["."] cs' (by simp) h2.1 (by decide)
      (fun c hc => validName_slash (h2.2 c hc)) heq
    have h3 := h2.2 "." (by rw [← this]; simp)
    exact validName_ne_dot h3 rfl

/-- The specification's example tree at a root that is a directory, under a separator
other than the slash: the result is exactly `a` and `a/b`. -/
theorem GetDirectories_directory_root_example :
    GetDirectories (treeEnv (Char.ofNat 92) "C:" .directory exampleTree)
        (NewLocalRepos [("https://github.com/org/repo.git", "C:")]) ⟨[]⟩
        "https://github.com/org/repo" "main" "" false false = (some ["a", "a/b"], none) ∧
    ∃ directories,
      GetDirectories (treeEnv (Char.ofNat 92) "C:" .directory exampleTree)
        (NewLocalRepos [("https://github.com/org/repo.git", "C:")]) ⟨[]⟩
        "https://github.com/org/repo" "main" "" false false = (directories, none) ∧
      directories.elems = exampleTree.dirs.map (fun cs => "/".intercalate cs) ∧
      directories.elems.Nodup ∧
      (∀ p, p ∈ directories.elems ↔
        ∃ cs, exampleTree.kindAt cs = some true ∧ p = "/".intercalate cs) ∧
      (∀ cs, exampleTree.kindAt cs = some false →
        "/".intercalate cs ∉ directories.elems) ∧
      "." ∉ directories.elems :=
  ⟨by decide,
   GetDirectories_directory_root (Char.ofNat 92) "C:" exampleTree
     (NewLocalRepos [("https://github.com/org/repo.git", "C:")]) ⟨[]⟩
     "https://github.com/org/repo" "main" "" false false (by decide) (by decide)⟩

/-- Through a root that is a symbolic link, `GetDirectories` returns the `nil` list and no
error whatever tree the link leads to. -/
theorem GetDirectories_symlink_root_nil (sep : Char) (root : String) (t : Tree)
    (r : LocalRepos) (ctx : Context) (repoURL revision project : String)
    (noRevisionCache verifyCommit : Bool)
    (hres : getLocalPath r repoURL = (root, none)) :
    GetDirectories (treeEnv sep root .symlink t) r ctx repoURL revision project
      noRevisionCache verifyCommit = (none, none) := by
  unfold GetDirectories
  rw [hres]
  simp [WalkDir, treeEnv, WalkDir.run, GetDirectories.fn]

/-- C8 (code defect): when the mapped path is a symbolic link to the directory that holds
the specification's example tree, `GetDirectories` returns the `nil` list and no error,
although `a` and `a/b` are directories beneath the root and `c.txt` is a file there; the
same tree reached through a root that is a directory yields `a` and `a/b`. -/
theorem GetDirectories_symlinked_root :
    exampleTree.wellFormed '/' = true ∧
    exampleTree.kindAt ["a"] = some true ∧
    exampleTree.kindAt ["a", "b"] = some true ∧
    exampleTree.kindAt ["c.txt"] = some false ∧
    GetDirectories (treeEnv '/' "/repo" .symlink exampleTree)
        (NewLocalRepos [("https://github.com/org/repo.git", "/repo")]) ⟨[]⟩
        "https://github.com/org/repo.git" "main" "" false false = (none, none) ∧
    GetDirectories (treeEnv '/' "/repo" .directory exampleTree)
        (NewLocalRepos [("https://github.com/org/repo.git", "/repo")]) ⟨[]⟩
        "https://github.com/org/repo.git" "main" "" false false =
      (some ["a", "a/b"], none) := by
  decide

/-- C9: on an `AppProject`, `fakeK8sClient.Get` reports success and leaves the object with
the key's name and namespace and a `nil`, hence empty, list of signature keys, whatever the
object held before; its outcome is a function of the key and the object alone. -/
theorem fakeK8sClient_Get_appProject (f : fakeK8sClient) (ctx : Context) (key : ObjectKey)
    (p : AppProject) (opts : List String) :
    (∃ p', f.Get ctx key (.appProject p) opts = (.appProject p', none) ∧
      p'.Name = key.Name ∧ p'.Namespace = key.Namespace ∧
      p'.Spec.SignatureKeys = none ∧ p'.Spec.SignatureKeys.elems = [] ∧
      p'.Spec.SourceRepos = p.Spec.SourceRepos ∧ p'.Spec.Description = p.Spec.Description) ∧
    (∀ (f' : fakeK8sClient) (ctx' : Context) (opts' : List String) (obj : Object),
      f'.Get ctx' key obj opts' = f.Get ctx key obj opts) ∧
    (∀ obj : Object, (f.Get ctx key obj opts).2 = none) := by
  refine ⟨⟨_, rfl, rfl, rfl, rfl, rfl, rfl, rfl⟩, ?_, ?_⟩
  · intro f' ctx' opts' obj
    cases obj <;> rfl
  · intro obj
    cases obj <;> rfl

/-- C10: `OfflineGitGenerator.GenerateParams` returns, unchanged, what the wrapped
generator returns when it is handed a fresh `fakeK8sClient`; the client supplied by the
caller has no influence on the outcome. -/
theorem GenerateParams_client_substitution {W Gen AppSet Template Params : Type}
    (g : OfflineGitGenerator W Gen AppSet Template Params) (w : W) (appSetGenerator : Gen)
    (appSet : AppSet) (c1 c2 : Client) :
    g.GenerateParams w appSetGenerator appSet c1 =
        g.GenerateParams w appSetGenerator appSet c2 ∧
      g.GenerateParams w appSetGenerator appSet c1 =
        g.inner.GenerateParams w appSetGenerator appSet (fakeK8sClient.toClient {}) :=
  ⟨rfl, rfl⟩

end Preview
